import Mathlib

/-!
Shallow embedding of the `linear-rustgebra` matrix library (`src/lib.rs`).

Modelling conventions:
* Rust `f64` values are embedded as exact rationals `ℚ`.  IEEE negative zero
  is identified with `0` (in Rust `-0.0 == 0.0` holds, so every `==`
  comparison in the source is preserved by this identification); division by
  zero yields `0` in `ℚ` where IEEE would give `±inf`/NaN — no claim below
  depends on a zero divisor.
* A Rust `panic!` (including an out-of-bounds slice/index panic) is embedded
  as `Option.none`; fallible operations therefore return `Option _`.
* The struct `Matrix { rows, cols, data }` with its row-major flat buffer is
  embedded verbatim; logical element `(r, c)` lives at flat index
  `r * cols + c`.
-/

namespace Linalg

/-- Embeds the Rust struct `Matrix { rows: usize, cols: usize, data: Vec<f64> }`. -/
@[ext] structure Matrix where
  rows : Nat
  cols : Nat
  data : List ℚ
deriving DecidableEq, Repr

namespace Matrix

/-- Size invariant from the spec's data model: `data.len() == rows * cols`. -/
def SizeInv (m : Matrix) : Prop := m.data.length = m.rows * m.cols

instance (m : Matrix) : Decidable m.SizeInv := by unfold SizeInv; infer_instance

/-- Reads the buffer element at flat index `r * cols + c`, i.e. the Rust
`self[r][c]` when that access is in bounds (out-of-range reads default to `0`
and are only used under explicit in-bounds guards below). -/
def entry (m : Matrix) (r c : Nat) : ℚ := (m.data[r * m.cols + c]?).getD 0

/-- Writes the buffer element at flat index `r * cols + c`, i.e. the Rust
assignment `self[r][c] = v` (an out-of-range `List.set` is a no-op; all uses
below are in bounds under `SizeInv`). -/
def set (m : Matrix) (r c : Nat) (v : ℚ) : Matrix :=
  { m with data := m.data.set (r * m.cols + c) v }

/-- Builds the buffer produced by allocating `Self::new(R, C)` and then filling
every slot by a nested row-major loop storing `f r c` at flat index
`r * C + c`. -/
def ofFn (R C : Nat) (f : Nat → Nat → ℚ) : Matrix :=
  ⟨R, C, (List.range (R * C)).map (fun k => f (k / C) (k % C))⟩

/-- Embeds `Matrix::new(rows, cols)`: a zero-filled buffer of `rows * cols`. -/
def new (rows cols : Nat) : Matrix := ⟨rows, cols, List.replicate (rows * cols) 0⟩

/-- Embeds `Matrix::copy`: pushes every element of `data` into a fresh buffer. -/
def copy (m : Matrix) : Matrix := ⟨m.rows, m.cols, m.data⟩

/-- Splits a character list at separators, keeping empty chunks, mirroring
Rust's `str::split`. -/
def splitBy (sep : Char → Bool) : List Char → List (List Char)
  | [] => [[]]
  | c :: cs =>
    let r := splitBy sep cs
    if sep c then [] :: r
    else
      match r with
      | [] => [[c]]
      | g :: gs => (c :: g) :: gs

/-- Tokens of a row: Rust's `split_whitespace` (split at whitespace, dropping
empty chunks). -/
def tokens (l : List Char) : List (List Char) :=
  (splitBy Char.isWhitespace l).filter (fun t => t ≠ [])

/-- Digit-list to numerator accumulation for `parseTok`. -/
def digitsVal (l : List Char) : Nat := l.foldl (fun acc c => acc * 10 + c.toNat - '0'.toNat) 0

/-- Models the standard library's `str::parse::<f64>()` on plain decimal
literals `[sign] digits [. digits]` (exponents, `inf`, `NaN` omitted; values
are exact rationals, which agrees with `f64` on every literal appearing in the
claims). Any other token fails, as `parse` does on invalid input. -/
def parseTok (t : List Char) : Option ℚ :=
  let (neg, rest) :=
    match t with
    | '-' :: r => (true, r)
    | '+' :: r => (false, r)
    | r => (false, r)
  let intPart := rest.takeWhile Char.isDigit
  let after := rest.dropWhile Char.isDigit
  match after with
  | [] =>
    if intPart = [] then none
    else
      let mag : ℚ := (digitsVal intPart : ℚ)
      some (if neg then -mag else mag)
  | '.' :: fracRaw =>
    let fracPart := fracRaw.takeWhile Char.isDigit
    if fracRaw.dropWhile Char.isDigit ≠ [] then none
    else if intPart = [] ∧ fracPart = [] then none
    else
      let mag : ℚ := (digitsVal intPart : ℚ) +
        (digitsVal fracPart : ℚ) / (10 : ℚ) ^ fracPart.length
      some (if neg then -mag else mag)
  | _ => none

/-- One iteration of the `from_string` row loop.  State is
`(cols, count, data)`; the Rust code panics (here: `none`) when a later row's
token count differs from `cols`, otherwise parses the row's tokens and appends
them to `data`. -/
def fromStringStep (st : Nat × Nat × List ℚ) (r : List Char) : Option (Nat × Nat × List ℚ) :=
  let entries := tokens r
  let c := entries.length
  if 0 < st.2.1 ∧ st.1 ≠ c then none
  else (entries.mapM parseTok).map (fun vals => (c, st.2.1 + 1, st.2.2 ++ vals))

/-- Embeds `Matrix::from_string`: split the input at `;` into rows, process
each row with `fromStringStep`, and build the matrix with
`rows = number of chunks` and the final `cols`/`data`. -/
def from_string (input : String) : Option Matrix :=
  ((splitBy (fun ch => ch = ';') input.data).foldlM fromStringStep (0, 0, [])).map
    (fun st => ⟨(splitBy (fun ch => ch = ';') input.data).length, st.1, st.2.2⟩)

/-- Embeds `Matrix::identity`: panics (`none`) unless square, then sets each
diagonal slot `self[r][r] = 1.0` — off-diagonal slots are left untouched. -/
def identity (m : Matrix) : Option Matrix :=
  if m.rows ≠ m.cols then none
  else some ((List.range m.rows).foldl (fun acc r => acc.set r r 1) m)

/-- Embeds `Matrix::apply`: in-place elementwise map over the buffer. -/
def apply (m : Matrix) (f : ℚ → ℚ) : Matrix := { m with data := m.data.map f }

/-- Embeds `Matrix::combine`: panics (`none`) unless both dimensions agree,
otherwise zips the two buffers elementwise with `f`. -/
def combine (a b : Matrix) (f : ℚ → ℚ → ℚ) : Option Matrix :=
  if a.rows ≠ b.rows ∨ a.cols ≠ b.cols then none
  else some ⟨a.rows, a.cols, List.zipWith f a.data b.data⟩

/-- Embeds `Matrix::dot`: panics (`none`) unless `self.rows == b.cols` AND
`self.cols == b.rows` (the source checks both), then fills an
`rows × b.cols` result, entry `(i, j)` accumulated by
`for k in 0..b.rows { sum += self[i][k] * b[k][j] }`. -/
def dot (a b : Matrix) : Option Matrix :=
  if a.rows ≠ b.cols ∨ a.cols ≠ b.rows then none
  else some (ofFn a.rows b.cols (fun i j =>
    (List.range b.rows).foldl (fun sum k => sum + a.entry i k * b.entry k j) 0))

/-- Embeds `Matrix::trace`: panics (`none`) unless square, then accumulates
`t += self[i][i]`. -/
def trace (m : Matrix) : Option ℚ :=
  if m.rows ≠ m.cols then none
  else some ((List.range m.rows).foldl (fun t i => t + m.entry i i) 0)

/-- Embeds `Matrix::transpose`: allocates `new(cols, rows)` and stores
`t[j][i] = self[i][j]` for every `i < rows`, `j < cols`. -/
def transpose (m : Matrix) : Matrix := ofFn m.cols m.rows (fun j i => m.entry i j)

/-- Per-entry result of one pass of the `correct` loop body.  The Rust code
reads `elem` once and conditionally overwrites the slot up to four times; the
stored value is decided by the last condition that fires, all conditions being
on the original `elem`.  The first condition `elem == -0.0` holds (in IEEE and
hence in this `ℚ` model) exactly when `elem` is zero, and writes `0.0`.
Inside the `elem - elem.floor() > 0.9999999` branch the fractional part lies in
`(0.9999999, 1)`, where Rust's round-half-away-from-zero coincides with
Mathlib's `round`. -/
def correctEntry (elem : ℚ) : ℚ :=
  let s1 := if elem = 0 then 0 else elem
  let s2 := if elem - (⌊elem⌋ : ℚ) > 9999999 / 10000000 then (round elem : ℚ) else s1
  let s3 := if 0 < elem ∧ elem < 1 / 1000000 then 0 else s2
  if elem < 0 ∧ -(1 / 100000) < elem then 0 else s3

/-- Embeds `Matrix::correct`: the nested row/column loop reads each buffer cell
`self[row][col]` exactly once and conditionally overwrites only that cell, so
under the size invariant the pass is the elementwise map of `correctEntry`
over the buffer. -/
def correct (m : Matrix) : Matrix := { m with data := m.data.map correctEntry }

/-- Embeds `Matrix::swap_rows`: finds the first row with positive first entry
(default `0`), copies row `row` into `temp` (a buffer of length `cols`), then
for each `c` stores `self[row][c] = self[n_r][c]` and
`self[n_r][c] = temp[n_r * cols + c]`.  The second read indexes `temp` out of
bounds (a Rust panic, here `none`) whenever `n_r ≥ 1` and `cols ≥ 1`. -/
def swap_rows (m : Matrix) (row : Nat) : Option Matrix :=
  let n_r := ((List.range m.rows).find? (fun r => 0 < m.entry r 0)).getD 0
  let temp := (m.data.drop (row * m.cols)).take m.cols
  (List.range m.cols).foldlM (fun acc c =>
    (temp[n_r * m.cols + c]?).map (fun t => (acc.set row c (acc.entry n_r c)).set n_r c t)) m

/-- Elimination loop of `Matrix::rref`: for each `lead` and each row `r`, read
`div = self[lead][lead]` and `mult = self[r][lead] / div`, then either divide
the pivot row by `div` or subtract `mult` times the pivot row.  The reads
`self[lead][lead]`/`self[r][lead]` index a row slice at position `lead` and
panic (`none`) when `lead ≥ cols` (possible only when `rows > cols`). -/
def rrefElim (m : Matrix) : Option Matrix :=
  (List.range m.rows).foldlM (fun acc lead =>
    (List.range m.rows).foldlM (fun a2 r =>
      if lead < a2.cols then
        let div := a2.entry lead lead
        let mult := a2.entry r lead / div
        if r = lead then
          some ((List.range a2.cols).foldl (fun a3 c => a3.set lead c (a3.entry lead c / div)) a2)
        else
          some ((List.range a2.cols).foldl
            (fun a3 c => a3.set r c (a3.entry r c - a3.entry lead c * mult)) a2)
      else none) acc) m

/-- Embeds `Matrix::rref`: the initial read `self[0][0]` panics (`none`)
unless `0 < cols ∧ cols ≤ data.length`; if that entry is `0.0` the rows are
pre-swapped via `swap_rows(0)`; then the elimination loop runs and finally
`correct` is applied. -/
def rref (m : Matrix) : Option Matrix :=
  if 0 < m.cols ∧ m.cols ≤ m.data.length then
    (if m.entry 0 0 = 0 then m.swap_rows 0 else some m).bind
      (fun m1 => (rrefElim m1).map (fun m2 => m2.correct))
  else none

/-- The `cut` buffer built by `Matrix::cofactor`: every row except
`expanded_row`, each with every column except `j`. -/
def cut (m : Matrix) (er j : Nat) : List (List ℚ) :=
  ((List.range m.rows).filter (fun r => r ≠ er)).map (fun r =>
    ((List.range m.cols).filter (fun c => c ≠ j)).map (fun c => m.entry r c))

/-- The minor matrix assembled by `Matrix::cofactor` from `cut`:
`rows = cut.len()`, `cols = cut[0].len()`, `data = cut` flattened. -/
def minorOf (m : Matrix) (er j : Nat) : Matrix :=
  ⟨(m.cut er j).length, ((m.cut er j).headD []).length, (m.cut er j).flatten⟩

/-- Body of `Matrix::cofactor`, parametrised by the determinant routine `dt`
applied to the minor: builds `cut`, panics (`none`) on `cut[0]` if `cut` is
empty, then multiplies the minor's determinant by `(-1)^(expanded_row + j)`. -/
def cofWith (dt : Matrix → Option ℚ) (m : Matrix) (er j : Nat) : Option ℚ :=
  if m.cut er j = [] then none
  else (dt (m.minorOf er j)).map (fun d => d * (-1 : ℚ) ^ (er + j))

/-- Fuel-indexed embedding of `Matrix::det` (the fuel only bounds the
`det`/`cofactor` recursion depth; `rows + 1` is always sufficient, see
`detF_stable`).  Panics (`none`) unless square; `2×2` base case
`a*d - b*c`; otherwise reads `self[1].len()` — a slice that panics (`none`)
unless `2 * cols ≤ data.length` — and accumulates
`det += self.cofactor(1, j) * self[1][j]` over `j`, the cofactor recursing
into `det` through `cofWith`. -/
def detF : Nat → Matrix → Option ℚ
  | 0, _ => none
  | fuel + 1, m =>
    if m.rows ≠ m.cols then none
    else if m.rows = 2 ∧ m.cols = 2 then
      some (m.entry 0 0 * m.entry 1 1 - m.entry 0 1 * m.entry 1 0)
    else if 2 * m.cols ≤ m.data.length then
      (List.range m.cols).foldlM
        (fun acc j => (cofWith (fun mm => detF fuel mm) m 1 j).map
          (fun cf => acc + cf * m.entry 1 j)) 0
    else none

/-- Fuel-indexed embedding of `Matrix::cofactor`. -/
def cofF (fuel : Nat) (m : Matrix) (er j : Nat) : Option ℚ := cofWith (detF fuel) m er j

/-- Embeds `Matrix::det` (fuel `rows + 1` always suffices for the
`det`/`cofactor` recursion, whose depth is bounded by the row count). -/
def det (m : Matrix) : Option ℚ := detF (m.rows + 1) m

/-- Embeds `Matrix::cofactor`. -/
def cofactor (m : Matrix) (er j : Nat) : Option ℚ := cofF (m.rows + 1) m er j

/-- Embeds `Matrix::inverse`: computes `det` (propagating its panic), panics
(`none`) when it is exactly zero, fills a fresh `rows × cols` matrix with
`inv[row][col] = self.cofactor(row, col)` in row-major order (propagating any
cofactor panic), then applies `correct`, transposes, and divides every entry
by the determinant. -/
def inverse (m : Matrix) : Option Matrix :=
  m.det.bind (fun d =>
    if d = 0 then none
    else
      ((List.range m.rows).mapM (fun r =>
        (List.range m.cols).mapM (fun c => m.cofactor r c))).map
        (fun entries =>
          ((Matrix.mk m.rows m.cols entries.flatten).correct.transpose).apply (fun x => x / d)))

end Matrix

end Linalg

namespace Linalg

namespace Matrix

/-! ### Indexing helper lemmas -/

/-- Division recovers the row index from a row-major flat index. -/
theorem flatIdx_div {C r c : Nat} (hc : c < C) : (r * C + c) / C = r := by
  have hC : 0 < C := by omega
  rw [Nat.add_comm, Nat.add_mul_div_right _ _ hC, Nat.div_eq_of_lt hc, Nat.zero_add]

/-- Remainder recovers the column index from a row-major flat index. -/
theorem flatIdx_mod {C r c : Nat} (hc : c < C) : (r * C + c) % C = c := by
  rw [Nat.add_comm, Nat.add_mul_mod_self_right, Nat.mod_eq_of_lt hc]

/-- Row-major flat indexing is injective on in-range column indices. -/
theorem flatIdx_inj {C r c r' c' : Nat} (hc : c < C) (hc' : c' < C)
    (h : r * C + c = r' * C + c') : r = r' ∧ c = c' := by
  have hr : r = r' := by
    have e1 := @flatIdx_div C r c hc
    have e2 := @flatIdx_div C r' c' hc'
    rw [← e1, ← e2, h]
  subst hr
  exact ⟨rfl, Nat.add_left_cancel h⟩

theorem ofFn_rows (R C : Nat) (f : Nat → Nat → ℚ) : (ofFn R C f).rows = R := rfl

theorem ofFn_cols (R C : Nat) (f : Nat → Nat → ℚ) : (ofFn R C f).cols = C := rfl

theorem ofFn_sizeInv (R C : Nat) (f : Nat → Nat → ℚ) : (ofFn R C f).SizeInv := by
  simp [ofFn, SizeInv]

theorem entry_ofFn (R C : Nat) (f : Nat → Nat → ℚ) {r c : Nat} (hr : r < R) (hc : c < C) :
    (ofFn R C f).entry r c = f r c := by
  have hidx : r * C + c < R * C := by
    calc r * C + c < r * C + C := by omega
    _ = (r + 1) * C := by ring
    _ ≤ R * C := Nat.mul_le_mul_right C hr
  simp [entry, ofFn, List.getElem?_map, List.getElem?_range hidx, flatIdx_div hc,
    flatIdx_mod hc]

theorem entry_set_self {m : Matrix} {r c : Nat} (v : ℚ)
    (hidx : r * m.cols + c < m.data.length) :
    (m.set r c v).entry r c = v := by
  simp [entry, set, List.getElem?_set_self, hidx]

theorem entry_set_ne {m : Matrix} {r c r' c' : Nat} (v : ℚ)
    (hne : r' * m.cols + c' ≠ r * m.cols + c) :
    (m.set r c v).entry r' c' = m.entry r' c' := by
  simp [entry, set, List.getElem?_set_ne (Ne.symm hne)]

theorem set_rows (m : Matrix) (r c : Nat) (v : ℚ) : (m.set r c v).rows = m.rows := rfl

theorem set_cols (m : Matrix) (r c : Nat) (v : ℚ) : (m.set r c v).cols = m.cols := rfl

theorem set_length (m : Matrix) (r c : Nat) (v : ℚ) :
    (m.set r c v).data.length = m.data.length := by simp [set]

/-! ### Fold conversion lemmas -/

/-- The accumulation loop `for k { sum += f k }` computes a `Finset.range` sum. -/
theorem foldl_add_range (f : Nat → ℚ) : ∀ (n : Nat) (init : ℚ),
    (List.range n).foldl (fun s k => s + f k) init = init + ∑ k ∈ Finset.range n, f k := by
  intro n
  induction n with
  | zero => intro init; simp
  | succ n ih =>
    intro init
    rw [List.range_succ, List.foldl_append, ih, Finset.sum_range_succ]
    simp [add_assoc]

end Matrix

end Linalg

namespace Linalg

namespace Matrix

/-! ### Preservation lemmas for loops -/

/-- A property preserved by each successful step of an option-valued fold is
preserved by the whole fold. -/
theorem foldlM_preserves {α : Type} (P : Matrix → Prop) (f : Matrix → α → Option Matrix)
    (hstep : ∀ m a m', f m a = some m' → P m → P m') :
    ∀ (l : List α) (m m' : Matrix), l.foldlM f m = some m' → P m → P m' := by
  intro l
  induction l with
  | nil => intro m m' h hm; simp at h; exact h ▸ hm
  | cons a l ih =>
    intro m m' h hm
    rw [List.foldlM_cons] at h
    cases hfa : f m a with
    | none => rw [hfa] at h; simp at h
    | some m1 =>
      rw [hfa] at h
      simp at h
      exact ih m1 m' h (hstep m a m1 hfa hm)

/-- A property preserved by each step of a plain fold is preserved by the
whole fold. -/
theorem foldl_preserves {α : Type} (P : Matrix → Prop) (f : Matrix → α → Matrix)
    (hstep : ∀ m a, P m → P (f m a)) :
    ∀ (l : List α) (m : Matrix), P m → P (l.foldl f m) := by
  intro l
  induction l with
  | nil => intro m hm; exact hm
  | cons a l ih => intro m hm; rw [List.foldl_cons]; exact ih (f m a) (hstep m a hm)

/-- A successful monadic map over a list produces a list of the same length. -/
theorem mapM_length {α β : Type} (g : α → Option β) :
    ∀ (l : List α) (l' : List β), l.mapM g = some l' → l'.length = l.length := by
  intro l
  induction l with
  | nil =>
    intro l' h
    rw [List.mapM_nil] at h
    simp only [Option.pure_def, Option.some.injEq] at h
    simp [← h]
  | cons a l ih =>
    intro l' h
    rw [List.mapM_cons] at h
    cases hga : g a with
    | none => rw [hga] at h; simp at h
    | some b =>
      rw [hga] at h
      cases hml : l.mapM g with
      | none => rw [hml] at h; simp at h
      | some bs =>
        rw [hml] at h
        simp at h
        rw [← h]
        simp [ih bs hml]

/-- Every element of a successful monadic map's output is the image of some
input element. -/
theorem mapM_mem {α β : Type} (g : α → Option β) :
    ∀ (l : List α) (l' : List β), l.mapM g = some l' →
      ∀ b ∈ l', ∃ a ∈ l, g a = some b := by
  intro l
  induction l with
  | nil =>
    intro l' h b hb
    rw [List.mapM_nil] at h
    simp only [Option.pure_def, Option.some.injEq] at h
    rw [← h] at hb; simp at hb
  | cons a l ih =>
    intro l' h b hb
    rw [List.mapM_cons] at h
    cases hga : g a with
    | none => rw [hga] at h; simp at h
    | some b0 =>
      rw [hga] at h
      cases hml : l.mapM g with
      | none => rw [hml] at h; simp at h
      | some bs =>
        rw [hml] at h
        simp at h
        rw [← h] at hb
        rcases List.mem_cons.1 hb with hb0 | hbs
        · exact ⟨a, List.mem_cons_self a l, hb0 ▸ hga⟩
        · rcases ih bs hml b hbs with ⟨a', ha', hga'⟩
          exact ⟨a', List.mem_cons_of_mem a ha', hga'⟩

end Matrix

end Linalg

namespace Linalg

namespace Matrix

/-! ### Size-invariant lemmas for each operation -/

theorem new_sizeInv (r c : Nat) : (new r c).SizeInv := by simp [new, SizeInv]

theorem copy_sizeInv {m : Matrix} (h : m.SizeInv) : m.copy.SizeInv := h

theorem apply_sizeInv {m : Matrix} (f : ℚ → ℚ) (h : m.SizeInv) : (m.apply f).SizeInv := by
  simpa [apply, SizeInv] using h

theorem correct_sizeInv {m : Matrix} (h : m.SizeInv) : m.correct.SizeInv := by
  simpa [correct, SizeInv] using h

theorem correct_rows (m : Matrix) : m.correct.rows = m.rows := rfl

theorem correct_cols (m : Matrix) : m.correct.cols = m.cols := rfl

theorem transpose_sizeInv (m : Matrix) : m.transpose.SizeInv := ofFn_sizeInv _ _ _

/-- Invariant carried through the `from_string` row loop: the column count of
the final state grows by the number of processed rows, and
`data.len = count * cols` is preserved. -/
theorem fromString_fold_inv :
    ∀ (rs : List (List Char)) (st st' : Nat × Nat × List ℚ),
      rs.foldlM fromStringStep st = some st' →
      st'.2.1 = st.2.1 + rs.length ∧
        (st.2.2.length = st.2.1 * st.1 → st'.2.2.length = st'.2.1 * st'.1) := by
  intro rs
  induction rs with
  | nil =>
    intro st st' h
    simp at h
    subst h
    exact ⟨rfl, fun hh => hh⟩
  | cons r rs ih =>
    intro st st' h
    rw [List.foldlM_cons] at h
    cases hstep : fromStringStep st r with
    | none => rw [hstep] at h; simp at h
    | some st1 =>
      rw [hstep] at h
      simp at h
      obtain ⟨hcount, hlen⟩ := ih st1 st' h
      unfold fromStringStep at hstep
      by_cases hrag : 0 < st.2.1 ∧ st.1 ≠ (tokens r).length
      · rw [if_pos hrag] at hstep; simp at hstep
      · rw [if_neg hrag] at hstep
        cases hvals : (tokens r).mapM parseTok with
        | none => rw [hvals] at hstep; simp at hstep
        | some vals =>
          rw [hvals] at hstep
          simp at hstep
          have hvlen := mapM_length parseTok _ _ hvals
          constructor
          · rw [hcount, ← hstep]
            simp [List.length_cons]
            omega
          · intro hst
            apply hlen
            rw [← hstep]
            simp only [List.length_append, hst, hvlen]
            by_cases hzero : st.2.1 = 0
            · simp [hzero]
            · have : st.1 = (tokens r).length := by
                by_contra hne
                exact hrag ⟨Nat.pos_of_ne_zero hzero, hne⟩
              rw [← this]
              ring

theorem from_string_sizeInv {s : String} {m : Matrix} (h : from_string s = some m) :
    m.SizeInv := by
  unfold from_string at h
  cases hfold : (splitBy (fun ch => ch = ';') s.data).foldlM fromStringStep (0, 0, []) with
  | none => rw [hfold] at h; simp at h
  | some st =>
    rw [hfold] at h
    simp at h
    obtain ⟨hcount, hlen⟩ := fromString_fold_inv _ _ _ hfold
    have : st.2.2.length = st.2.1 * st.1 := hlen (by simp)
    rw [← h]
    simp only [SizeInv]
    rw [this, hcount]
    simp [Nat.mul_comm]

theorem identity_sizeInv {m m' : Matrix} (h : m.identity = some m') (hm : m.SizeInv) :
    m'.SizeInv := by
  unfold identity at h
  by_cases hsq : m.rows ≠ m.cols
  · rw [if_pos hsq] at h; simp at h
  · rw [if_neg hsq] at h
    simp at h
    have := foldl_preserves
      (fun x => x.data.length = m.data.length ∧ x.rows = m.rows ∧ x.cols = m.cols)
      (fun acc r => acc.set r r 1)
      (fun x a hx => by
        refine ⟨?_, hx.2.1 ▸ set_rows x a a 1, hx.2.2 ▸ set_cols x a a 1⟩
        rw [set_length]; exact hx.1)
      (List.range m.rows) m ⟨rfl, rfl, rfl⟩
    rw [← h]
    simp only [SizeInv] at hm ⊢
    rw [this.1, this.2.1, this.2.2]
    exact hm

theorem combine_sizeInv {a b c : Matrix} (f : ℚ → ℚ → ℚ) (ha : a.SizeInv) (hb : b.SizeInv)
    (h : combine a b f = some c) : c.SizeInv := by
  unfold combine at h
  by_cases hdim : a.rows ≠ b.rows ∨ a.cols ≠ b.cols
  · rw [if_pos hdim] at h; simp at h
  · rw [if_neg hdim] at h
    push_neg at hdim
    simp at h
    rw [← h]
    simp only [SizeInv] at ha hb ⊢
    simp [List.length_zipWith, ha, hb, hdim.1, hdim.2]

theorem dot_sizeInv {a b c : Matrix} (h : dot a b = some c) : c.SizeInv := by
  unfold dot at h
  by_cases hdim : a.rows ≠ b.cols ∨ a.cols ≠ b.rows
  · rw [if_pos hdim] at h; simp at h
  · rw [if_neg hdim] at h
    simp at h
    exact h ▸ ofFn_sizeInv _ _ _

theorem swap_rows_preserves {m m' : Matrix} {row : Nat} (h : m.swap_rows row = some m') :
    m'.data.length = m.data.length ∧ m'.rows = m.rows ∧ m'.cols = m.cols := by
  unfold swap_rows at h
  exact foldlM_preserves
    (fun x => x.data.length = m.data.length ∧ x.rows = m.rows ∧ x.cols = m.cols)
    _
    (fun x a x' hx hxP => by
      cases ht : ((m.data.drop (row * m.cols)).take m.cols)[
          (((List.range m.rows).find? (fun r => 0 < m.entry r 0)).getD 0) * m.cols + a]? with
      | none => rw [ht] at hx; simp at hx
      | some t =>
        rw [ht] at hx
        simp at hx
        rw [← hx]
        refine ⟨?_, hxP.2.1 ▸ rfl, hxP.2.2 ▸ rfl⟩
        simp only [set_length]
        exact hxP.1)
    (List.range m.cols) m m' h ⟨rfl, rfl, rfl⟩

theorem rrefElim_preserves {m m' : Matrix} (h : rrefElim m = some m') :
    m'.data.length = m.data.length ∧ m'.rows = m.rows ∧ m'.cols = m.cols := by
  unfold rrefElim at h
  refine foldlM_preserves
    (fun x => x.data.length = m.data.length ∧ x.rows = m.rows ∧ x.cols = m.cols)
    _ ?_ (List.range m.rows) m m' h ⟨rfl, rfl, rfl⟩
  intro x lead x' hx hxP
  refine foldlM_preserves
    (fun y => y.data.length = m.data.length ∧ y.rows = m.rows ∧ y.cols = m.cols)
    _ ?_ (List.range m.rows) x x' hx hxP
  intro y r y' hy hyP
  by_cases hlt : lead < y.cols
  · rw [if_pos hlt] at hy
    by_cases hr : r = lead <;> simp [hr] at hy <;>
    · rw [← hy]
      refine foldl_preserves
        (fun z => z.data.length = m.data.length ∧ z.rows = m.rows ∧ z.cols = m.cols)
        _ ?_ (List.range y.cols) y hyP
      intro z a hz
      exact ⟨by rw [set_length]; exact hz.1, hz.2.1 ▸ rfl, hz.2.2 ▸ rfl⟩
  · rw [if_neg hlt] at hy; simp at hy

theorem rref_sizeInv {m m' : Matrix} (h : m.rref = some m') (hm : m.SizeInv) : m'.SizeInv := by
  unfold rref at h
  by_cases hg : 0 < m.cols ∧ m.cols ≤ m.data.length
  · rw [if_pos hg] at h
    cases hswap : (if m.entry 0 0 = 0 then m.swap_rows 0 else some m) with
    | none => rw [hswap] at h; simp at h
    | some m1 =>
      rw [hswap] at h
      simp only [Option.some_bind] at h
      cases helim : rrefElim m1 with
      | none => rw [helim] at h; simp at h
      | some m2 =>
        rw [helim] at h
        simp at h
        have h1 : m1.data.length = m.data.length ∧ m1.rows = m.rows ∧ m1.cols = m.cols := by
          by_cases hz : m.entry 0 0 = 0
          · rw [if_pos hz] at hswap; exact swap_rows_preserves hswap
          · rw [if_neg hz] at hswap; simp at hswap; rw [← hswap]; exact ⟨rfl, rfl, rfl⟩
        have h2 := rrefElim_preserves helim
        rw [← h]
        simp only [SizeInv, correct, List.length_map] at hm ⊢
        rw [h2.1, h2.2.1, h2.2.2, h1.1, h1.2.1, h1.2.2]
        exact hm
  · rw [if_neg hg] at h; simp at h

/-- Flattening a list of equal-length lists yields their total length. -/
theorem flatten_length_uniform {w : Nat} :
    ∀ (L : List (List ℚ)), (∀ x ∈ L, x.length = w) → L.flatten.length = L.length * w := by
  intro L
  induction L with
  | nil => intro _; simp
  | cons x L ih =>
    intro hx
    simp only [List.flatten_cons, List.length_append, List.length_cons]
    rw [ih (fun y hy => hx y (List.mem_cons_of_mem x hy)), hx x (List.mem_cons_self x L)]
    ring

theorem inverse_sizeInv {m m' : Matrix} (h : m.inverse = some m') : m'.SizeInv := by
  unfold inverse at h
  cases hdet : m.det with
  | none => rw [hdet] at h; simp at h
  | some d =>
    rw [hdet] at h
    simp only [Option.some_bind] at h
    by_cases hd : d = 0
    · rw [if_pos hd] at h; simp at h
    · rw [if_neg hd] at h
      cases hmap : (List.range m.rows).mapM
          (fun r => (List.range m.cols).mapM (fun c => m.cofactor r c)) with
      | none => rw [hmap] at h; simp at h
      | some entries =>
        rw [hmap] at h
        simp at h
        have hlen : entries.length = m.rows := by
          simpa using mapM_length _ _ _ hmap
        have hmem : ∀ x ∈ entries, x.length = m.cols := by
          intro x hx
          rcases mapM_mem _ _ _ hmap x hx with ⟨r, _, hr⟩
          simpa using mapM_length _ _ _ hr
        have hflat : entries.flatten.length = m.rows * m.cols := by
          rw [flatten_length_uniform entries hmem, hlen]
        rw [← h]
        apply apply_sizeInv
        apply transpose_sizeInv

end Matrix

end Linalg

namespace Linalg

namespace Matrix

/-! ### Entry characterisations of identity and transpose -/

/-- Characterises the diagonal-setting fold of `identity`: diagonal slots up to
`n` hold `1`, all other in-range slots keep their original value. -/
theorem diag_fold_spec {m : Matrix} (hm : m.SizeInv) (hsq : m.rows = m.cols) :
    ∀ n, n ≤ m.rows →
      ((List.range n).foldl (fun acc r => acc.set r r 1) m).rows = m.rows ∧
      ((List.range n).foldl (fun acc r => acc.set r r 1) m).cols = m.cols ∧
      ((List.range n).foldl (fun acc r => acc.set r r 1) m).data.length = m.data.length ∧
      ∀ r c, c < m.cols →
        ((List.range n).foldl (fun acc r => acc.set r r 1) m).entry r c =
          if r = c ∧ r < n then 1 else m.entry r c := by
  intro n
  induction n with
  | zero =>
    intro _
    refine ⟨rfl, rfl, rfl, ?_⟩
    intro r c _
    simp
  | succ n ih =>
    intro hn
    obtain ⟨hrows, hcols, hlen, hent⟩ := ih (Nat.le_of_succ_le hn)
    rw [List.range_succ, List.foldl_append, List.foldl_cons, List.foldl_nil]
    set F := (List.range n).foldl (fun acc r => acc.set r r 1) m with hF
    have hnrows : n < m.rows := hn
    have hncols : n < m.cols := hsq ▸ hnrows
    refine ⟨hrows ▸ set_rows F n n 1, hcols ▸ set_cols F n n 1, ?_, ?_⟩
    · rw [set_length]; exact hlen
    · intro r c hc
      by_cases hrc : r = n ∧ c = n
      · rw [hrc.1, hrc.2, entry_set_self]
        · simp
        · rw [hcols, hlen]
          calc n * m.cols + n < n * m.cols + m.cols := by omega
          _ = (n + 1) * m.cols := by ring
          _ ≤ m.rows * m.cols := Nat.mul_le_mul_right m.cols hnrows
          _ = m.data.length := hm.symm
      · have hne : r * F.cols + c ≠ n * F.cols + n := by
          rw [hcols]
          intro heq
          exact hrc (flatIdx_inj hc hncols heq)
        rw [entry_set_ne 1 hne, hent r c hc]
        by_cases h1 : r = c ∧ r < n
        · rw [if_pos h1, if_pos ⟨h1.1, Nat.lt_succ_of_lt h1.2⟩]
        · have h2 : ¬(r = c ∧ r < n + 1) := by
            rintro ⟨rfl, hlt⟩
            rcases Nat.lt_succ_iff_lt_or_eq.1 hlt with hlt' | rfl
            · exact h1 ⟨rfl, hlt'⟩
            · exact hrc ⟨rfl, rfl⟩
          rw [if_neg h1, if_neg h2]

/-- Reading every position of a list back via `getD` reproduces the list. -/
theorem map_getD_range (l : List ℚ) :
    (List.range l.length).map (fun k => (l[k]?).getD 0) = l := by
  apply List.ext_getElem
  · simp
  · intro i h1 h2
    simp only [List.getElem_map, List.getElem_range]
    rw [List.getElem?_eq_getElem h2]
    rfl

end Matrix

/-! ## Claim theorems -/

/-- Claim C9 (code_bug evaluation): parsing the ragged string `"1 2;3"` is
detected — the embedded `from_string` yields no matrix (the Rust source
panics with `Columns don't match` at this point rather than returning a
`RaggedInput` error value; there is no silent truncation). -/
theorem from_string_ragged_detected : Matrix.from_string "1 2;3" = none := by decide

/-- Claim C10: `trace` on a square matrix returns the sum of the diagonal
entries `M[i][i]` for `i < rows` (and, being a pure function of `self`, leaves
the matrix unchanged); on a non-square matrix it fails (`NotSquare` panic,
embedded as `none`). -/
theorem trace_spec (m : Matrix) :
    (m.rows = m.cols → m.trace = some (∑ i ∈ Finset.range m.rows, m.entry i i)) ∧
    (m.rows ≠ m.cols → m.trace = none) := by
  constructor
  · intro hsq
    unfold Matrix.trace
    rw [if_neg (by simp [hsq])]
    rw [Matrix.foldl_add_range, zero_add]
  · intro hns
    unfold Matrix.trace
    rw [if_pos hns]

/-- Witness for C10 at concrete inputs: a square `2×2` matrix and a
non-square `1×2` matrix. -/
theorem trace_spec_witness :
    Matrix.trace ⟨2, 2, [1, 2, 3, 4]⟩ =
      some (∑ i ∈ Finset.range 2, (⟨2, 2, [1, 2, 3, 4]⟩ : Matrix).entry i i) ∧
    Matrix.trace ⟨1, 2, [1, 2]⟩ = none :=
  ⟨(trace_spec ⟨2, 2, [1, 2, 3, 4]⟩).1 rfl, (trace_spec ⟨1, 2, [1, 2]⟩).2 (by decide)⟩

/-- Counterexample to claim C1 as stated: `A = [[1, 2]]` (1×2) and
`B = [[1, 0], [0, 1]]` (2×2) satisfy `A.cols == B.rows`, yet `dot` fails
(the source panics because it additionally demands `A.rows == B.cols`). -/
theorem dot_compatible_shapes_rejected :
    (⟨1, 2, [1, 2]⟩ : Matrix).cols = (⟨2, 2, [1, 0, 0, 1]⟩ : Matrix).rows ∧
    Matrix.dot ⟨1, 2, [1, 2]⟩ ⟨2, 2, [1, 0, 0, 1]⟩ = none := by
  constructor
  · rfl
  · decide

/-- Claim C1, amended: `dot(A, B)` succeeds exactly when `A.rows == B.cols`
AND `A.cols == B.rows` (the source checks both, not just the contraction
dimension); on success the result is `A.rows × B.cols` with entry
`(i, j) = Σ_{k < B.rows} A[i,k] * B[k,j]`; otherwise it fails with the
`DimensionMismatch` panic whose message reports both shapes. -/
theorem dot_spec_amended (a b : Matrix) :
    ((a.rows = b.cols ∧ a.cols = b.rows) →
      ∃ c, Matrix.dot a b = some c ∧ c.rows = a.rows ∧ c.cols = b.cols ∧
        ∀ i j, i < a.rows → j < b.cols →
          c.entry i j = ∑ k ∈ Finset.range b.rows, a.entry i k * b.entry k j) ∧
    (¬(a.rows = b.cols ∧ a.cols = b.rows) → Matrix.dot a b = none) := by
  constructor
  · rintro ⟨h1, h2⟩
    refine ⟨Matrix.ofFn a.rows b.cols (fun i j =>
        (List.range b.rows).foldl (fun sum k => sum + a.entry i k * b.entry k j) 0),
      ?_, rfl, rfl, ?_⟩
    · unfold Matrix.dot
      rw [if_neg (by simp [h1, h2])]
    · intro i j hi hj
      rw [Matrix.entry_ofFn a.rows b.cols _ hi hj, Matrix.foldl_add_range, zero_add]
  · intro hne
    unfold Matrix.dot
    rw [if_pos (by tauto)]

/-- Witness for the amended C1 at concrete compatible `1×1` inputs. -/
theorem dot_spec_amended_witness :
    (((⟨1, 1, [2]⟩ : Matrix).rows = (⟨1, 1, [3]⟩ : Matrix).cols ∧
        (⟨1, 1, [2]⟩ : Matrix).cols = (⟨1, 1, [3]⟩ : Matrix).rows) →
      ∃ c, Matrix.dot ⟨1, 1, [2]⟩ ⟨1, 1, [3]⟩ = some c ∧
        c.rows = (⟨1, 1, [2]⟩ : Matrix).rows ∧ c.cols = (⟨1, 1, [3]⟩ : Matrix).cols ∧
        ∀ i j, i < (⟨1, 1, [2]⟩ : Matrix).rows → j < (⟨1, 1, [3]⟩ : Matrix).cols →
          c.entry i j = ∑ k ∈ Finset.range (⟨1, 1, [3]⟩ : Matrix).rows,
            (⟨1, 1, [2]⟩ : Matrix).entry i k * (⟨1, 1, [3]⟩ : Matrix).entry k j) ∧
    (¬((⟨1, 1, [2]⟩ : Matrix).rows = (⟨1, 1, [3]⟩ : Matrix).cols ∧
        (⟨1, 1, [2]⟩ : Matrix).cols = (⟨1, 1, [3]⟩ : Matrix).rows) →
      Matrix.dot ⟨1, 1, [2]⟩ ⟨1, 1, [3]⟩ = none) :=
  dot_spec_amended ⟨1, 1, [2]⟩ ⟨1, 1, [3]⟩

/-- Counterexample to claim C4 as stated: calling `identity()` on the square
matrix `[[5, 5], [5, 5]]` leaves the off-diagonal entries at `5`; they are not
overwritten with `0.0`. -/
theorem identity_not_full_overwrite :
    Matrix.identity ⟨2, 2, [5, 5, 5, 5]⟩ = some ⟨2, 2, [1, 5, 5, 1]⟩ ∧
    (⟨2, 2, [1, 5, 5, 1]⟩ : Matrix).entry 0 1 ≠ 0 := by
  constructor
  · decide
  · decide

/-- Claim C4, amended: on a square matrix `identity()` sets every diagonal
entry to `1.0` and leaves every off-diagonal entry at its prior value (the
loop writes only `self[r][r]`; the operation is additive on the diagonal, not
a full overwrite); on a non-square matrix it fails with the `NotSquare`
panic. -/
theorem identity_spec_amended (m : Matrix) (hm : m.SizeInv) :
    (m.rows = m.cols →
      ∃ m', m.identity = some m' ∧ m'.rows = m.rows ∧ m'.cols = m.cols ∧
        (∀ r, r < m.rows → m'.entry r r = 1) ∧
        (∀ r c, r < m.rows → c < m.cols → r ≠ c → m'.entry r c = m.entry r c)) ∧
    (m.rows ≠ m.cols → m.identity = none) := by
  constructor
  · intro hsq
    obtain ⟨hrows, hcols, _, hent⟩ := Matrix.diag_fold_spec hm hsq m.rows (le_refl _)
    refine ⟨_, ?_, hrows, hcols, ?_, ?_⟩
    · unfold Matrix.identity
      rw [if_neg (by simp [hsq])]
    · intro r hr
      rw [hent r r (hsq ▸ hr)]
      simp [hr]
    · intro r c hr hc hne
      rw [hent r c hc]
      simp [hne]
  · intro hns
    unfold Matrix.identity
    rw [if_pos hns]

/-- Witness for the amended C4 at the concrete inputs `[[5,5],[5,5]]`
(square) and a `1×2` matrix (non-square). -/
theorem identity_spec_amended_witness :
    ((⟨2, 2, [5, 5, 5, 5]⟩ : Matrix).rows = (⟨2, 2, [5, 5, 5, 5]⟩ : Matrix).cols →
      ∃ m', Matrix.identity ⟨2, 2, [5, 5, 5, 5]⟩ = some m' ∧
        m'.rows = (⟨2, 2, [5, 5, 5, 5]⟩ : Matrix).rows ∧
        m'.cols = (⟨2, 2, [5, 5, 5, 5]⟩ : Matrix).cols ∧
        (∀ r, r < (⟨2, 2, [5, 5, 5, 5]⟩ : Matrix).rows → m'.entry r r = 1) ∧
        (∀ r c, r < (⟨2, 2, [5, 5, 5, 5]⟩ : Matrix).rows →
          c < (⟨2, 2, [5, 5, 5, 5]⟩ : Matrix).cols → r ≠ c →
          m'.entry r c = (⟨2, 2, [5, 5, 5, 5]⟩ : Matrix).entry r c)) ∧
    ((⟨2, 2, [5, 5, 5, 5]⟩ : Matrix).rows ≠ (⟨2, 2, [5, 5, 5, 5]⟩ : Matrix).cols →
      Matrix.identity ⟨2, 2, [5, 5, 5, 5]⟩ = none) :=
  identity_spec_amended ⟨2, 2, [5, 5, 5, 5]⟩ (by decide)

/-- Claim C6: `transpose` always succeeds, swaps the dimensions, satisfies
`result[j][i] = M[i][j]` for all valid `(i, j)`, and is an involution:
`transpose(transpose(M)) == M`. -/
theorem transpose_spec (m : Matrix) (hm : m.SizeInv) :
    (m.transpose.rows = m.cols ∧ m.transpose.cols = m.rows) ∧
    (∀ i j, i < m.rows → j < m.cols → m.transpose.entry j i = m.entry i j) ∧
    m.transpose.transpose = m := by
  refine ⟨⟨rfl, rfl⟩, ?_, ?_⟩
  · intro i j hi hj
    exact Matrix.entry_ofFn m.cols m.rows _ hj hi
  · apply Matrix.ext
    · rfl
    · rfl
    · show (List.range (m.rows * m.cols)).map
        (fun k => m.transpose.entry (k % m.cols) (k / m.cols)) = m.data
      have hmap : ∀ k ∈ List.range (m.rows * m.cols),
          m.transpose.entry (k % m.cols) (k / m.cols) = (m.data[k]?).getD 0 := by
        intro k hk
        rw [List.mem_range] at hk
        have hcpos : 0 < m.cols := by
          rcases Nat.eq_zero_or_pos m.cols with h0 | h1
          · rw [h0, Nat.mul_zero] at hk; omega
          · exact h1
        have hmod : k % m.cols < m.cols := Nat.mod_lt _ hcpos
        have hdivlt : k / m.cols < m.rows := Nat.div_lt_of_lt_mul (by rw [Nat.mul_comm]; exact hk)
        rw [Matrix.transpose, Matrix.entry_ofFn m.cols m.rows _ hmod hdivlt]
        show (m.data[(k / m.cols) * m.cols + k % m.cols]?).getD 0 = _
        have hk' : (k / m.cols) * m.cols + k % m.cols = k := by
          rw [Nat.mul_comm]
          exact Nat.div_add_mod k m.cols
        rw [hk']
      rw [List.map_congr_left hmap]
      have hlen : m.rows * m.cols = m.data.length := hm.symm
      rw [hlen]
      exact Matrix.map_getD_range m.data

/-- Witness for C6 at the concrete `2×3` matrix `[[1,2,3],[4,5,6]]`. -/
theorem transpose_spec_witness :
    ((⟨2, 3, [1, 2, 3, 4, 5, 6]⟩ : Matrix).transpose.rows =
        (⟨2, 3, [1, 2, 3, 4, 5, 6]⟩ : Matrix).cols ∧
      (⟨2, 3, [1, 2, 3, 4, 5, 6]⟩ : Matrix).transpose.cols =
        (⟨2, 3, [1, 2, 3, 4, 5, 6]⟩ : Matrix).rows) ∧
    (∀ i j, i < (⟨2, 3, [1, 2, 3, 4, 5, 6]⟩ : Matrix).rows →
      j < (⟨2, 3, [1, 2, 3, 4, 5, 6]⟩ : Matrix).cols →
      (⟨2, 3, [1, 2, 3, 4, 5, 6]⟩ : Matrix).transpose.entry j i =
        (⟨2, 3, [1, 2, 3, 4, 5, 6]⟩ : Matrix).entry i j) ∧
    (⟨2, 3, [1, 2, 3, 4, 5, 6]⟩ : Matrix).transpose.transpose =
      (⟨2, 3, [1, 2, 3, 4, 5, 6]⟩ : Matrix) :=
  transpose_spec ⟨2, 3, [1, 2, 3, 4, 5, 6]⟩ (by decide)

end Linalg

namespace Linalg

/-- Claim C2 (code_bug evaluation): `from_string("4 7;2 6")` parses to
`[[4,7],[2,6]]` and its determinant is `10 ≠ 0`, but `inverse` on ANY `2×2`
matrix fails: every cofactor builds a `1×1` minor, and `det` of a `1×1`
matrix reads the out-of-range row slice `self[1]` (a Rust
index-out-of-bounds panic, embedded as `none`), so the claimed result
`[[0.6,-0.7],[-0.2,0.4]]` is never produced. -/
theorem inverse_two_by_two_panics :
    Matrix.from_string "4 7;2 6" = some ⟨2, 2, [4, 7, 2, 6]⟩ ∧
    Matrix.det ⟨2, 2, [4, 7, 2, 6]⟩ = some 10 ∧
    Matrix.cofactor ⟨2, 2, [4, 7, 2, 6]⟩ 0 0 = none ∧
    (∀ a b c d : ℚ, Matrix.inverse ⟨2, 2, [a, b, c, d]⟩ = none) := by
  refine ⟨by decide, ?_, by decide, ?_⟩
  · show some _ = _
    norm_num [Matrix.entry]
  · intro a b c d
    show (Matrix.det ⟨2, 2, [a, b, c, d]⟩).bind _ = none
    rw [show Matrix.det ⟨2, 2, [a, b, c, d]⟩ = some (a * d - b * c) from rfl,
      Option.some_bind]
    rcases eq_or_ne (a * d - b * c) 0 with h | h
    · rw [if_pos h]
    · rw [if_neg h]
      rfl

/-- Claim C3 (code_bug evaluation): whenever `data[0][0] == 0.0` and some row
has a strictly positive first entry, `rref`'s pre-swap panics instead of
exchanging the rows: `swap_rows` copies only row `row` (a buffer of `cols`
entries) into `temp` but then reads `temp[n_r * cols + c]`, which is out of
bounds for every `c` once the found row `n_r` is non-zero.  Hence both
`swap_rows(0)` and the whole `rref` call fail (Rust: index-out-of-bounds
panic; embedded as `none`). -/
theorem rref_swap_panics (m : Matrix) (hm : m.SizeInv) (hc : 0 < m.cols)
    (h0 : m.entry 0 0 = 0) (hpos : ∃ r, r < m.rows ∧ 0 < m.entry r 0) :
    m.swap_rows 0 = none ∧ m.rref = none := by
  obtain ⟨r0, hr0, hp0⟩ := hpos
  have hrows : 0 < m.rows := Nat.lt_of_le_of_lt (Nat.zero_le _) hr0
  obtain ⟨a, ha⟩ : ∃ a, (List.range m.rows).find? (fun r => 0 < m.entry r 0) = some a := by
    rw [← Option.isSome_iff_exists, List.find?_isSome]
    exact ⟨r0, List.mem_range.2 hr0, by simpa using hp0⟩
  have hpa : 0 < m.entry a 0 := by simpa using List.find?_some ha
  have ha1 : 1 ≤ a := by
    rcases Nat.eq_zero_or_pos a with rfl | h
    · rw [h0] at hpa; exact absurd hpa (lt_irrefl 0)
    · exact h
  have hswap : m.swap_rows 0 = none := by
    unfold Matrix.swap_rows
    rw [ha]
    obtain ⟨k, hk⟩ : ∃ k, m.cols = k + 1 := ⟨m.cols - 1, by omega⟩
    rw [hk, List.range_succ_eq_map, List.foldlM_cons]
    have htemp : ((m.data.drop (0 * m.cols)).take m.cols)[(Option.some a).getD 0 * m.cols + 0]?
        = none := by
      apply List.getElem?_eq_none
      rw [List.length_take]
      have : a * m.cols ≥ m.cols := Nat.le_mul_of_pos_left m.cols ha1
      simp only [Option.getD_some]
      omega
    rw [hk] at htemp
    rw [htemp]
    rfl
  refine ⟨hswap, ?_⟩
  unfold Matrix.rref
  have hle : m.cols ≤ m.data.length := by
    rw [hm]
    exact Nat.le_mul_of_pos_left m.cols hrows
  rw [if_pos ⟨hc, hle⟩, if_pos h0, hswap]
  rfl

/-- Witness for C3's theorem at the concrete matrix parsed from `"0 1;1 0"`. -/
theorem rref_swap_panics_witness :
    Matrix.swap_rows ⟨2, 2, [0, 1, 1, 0]⟩ 0 = none ∧
    Matrix.rref ⟨2, 2, [0, 1, 1, 0]⟩ = none :=
  rref_swap_panics ⟨2, 2, [0, 1, 1, 0]⟩ (by decide) (by decide) (by decide)
    ⟨1, by decide, by decide⟩

/-- The tolerance-correction rules exactly as the claim states them, in the
claim's order: negative zero (in `ℚ`: zero) becomes positive zero; an entry
whose excess above its floor exceeds `0.9999999` is rounded to the nearest
integer; a strictly positive entry smaller than `0.000001` becomes `0.0`; a
strictly negative entry greater than `-0.00001` becomes `0.0`; all other
entries are unchanged. -/
def correctSpecFn (e : ℚ) : ℚ :=
  if e = 0 then 0
  else if e - (⌊e⌋ : ℚ) > 9999999 / 10000000 then (round e : ℚ)
  else if 0 < e ∧ e < 1 / 1000000 then 0
  else if e < 0 ∧ -(1 / 100000) < e then 0
  else e

/-- The sequential last-write-wins passes of the source loop body compute
exactly the claim's rule set, for every rational input. -/
theorem correctEntry_eq_spec (e : ℚ) : Matrix.correctEntry e = correctSpecFn e := by
  unfold Matrix.correctEntry correctSpecFn
  by_cases h0 : e = 0
  · subst h0
    norm_num
  · by_cases hneg : e < 0 ∧ -(1 / 100000) < e
    · rw [if_pos hneg, if_neg h0]
      by_cases hfrac : e - (⌊e⌋ : ℚ) > 9999999 / 10000000
      · rw [if_pos hfrac]
        have hfl : ⌊e⌋ = -1 := by
          rw [Int.floor_eq_iff]
          push_cast
          constructor <;> linarith [hneg.1, hneg.2]
        rw [hfl] at hfrac
        push_cast at hfrac
        have : round e = 0 := by
          rw [round_eq, Int.floor_eq_iff]
          push_cast
          constructor <;> linarith [hneg.1]
        rw [this]
        norm_num
      · rw [if_neg hfrac]
        have hnp : ¬(0 < e ∧ e < 1 / 1000000) := by
          rintro ⟨h1, _⟩
          linarith [hneg.1]
        rw [if_neg hnp, if_pos hneg]
    · rw [if_neg hneg, if_neg h0]
      by_cases hpos : 0 < e ∧ e < 1 / 1000000
      · rw [if_pos hpos]
        have hfl : ⌊e⌋ = 0 := by
          rw [Int.floor_eq_iff]
          push_cast
          constructor <;> linarith [hpos.1, hpos.2]
        have hfrac : ¬(e - (⌊e⌋ : ℚ) > 9999999 / 10000000) := by
          rw [hfl]
          push_cast
          linarith [hpos.2]
        rw [if_neg hfrac, if_pos hpos]
        simp
      · rw [if_neg hpos]
        by_cases hfrac : e - (⌊e⌋ : ℚ) > 9999999 / 10000000
        · rw [if_pos hfrac, if_pos hfrac, if_neg h0]
        · rw [if_neg hfrac, if_neg hfrac, if_neg h0, if_neg hpos, if_neg hneg]

/-- Claim C8: after the tolerance-correction pass, dimensions are unchanged
and each in-range entry is the claim's per-entry function of its original
value (negative zero normalised, near-integers rounded, tiny positive values
and tiny-magnitude negative values snapped to zero, everything else
untouched). -/
theorem correct_spec (m : Matrix) (hm : m.SizeInv) (i j : Nat)
    (hi : i < m.rows) (hj : j < m.cols) :
    m.correct.rows = m.rows ∧ m.correct.cols = m.cols ∧
    m.correct.entry i j = correctSpecFn (m.entry i j) := by
  refine ⟨rfl, rfl, ?_⟩
  have hidx : i * m.cols + j < m.data.length := by
    rw [hm]
    calc i * m.cols + j < i * m.cols + m.cols := by omega
    _ = (i + 1) * m.cols := by ring
    _ ≤ m.rows * m.cols := Nat.mul_le_mul_right m.cols hi
  show ((m.data.map Matrix.correctEntry)[i * m.cols + j]?).getD 0 = _
  rw [List.getElem?_map, List.getElem?_eq_getElem hidx]
  show Matrix.correctEntry (m.data[i * m.cols + j]) = _
  rw [← correctEntry_eq_spec]
  unfold Matrix.entry
  rw [List.getElem?_eq_getElem hidx]
  rfl

/-- Witness for C8 at a concrete matrix containing a near-integer, a tiny
positive value, a tiny negative value and an untouched value. -/
theorem correct_spec_witness :
    (⟨1, 1, [5]⟩ : Matrix).correct.rows = (⟨1, 1, [5]⟩ : Matrix).rows ∧
    (⟨1, 1, [5]⟩ : Matrix).correct.cols = (⟨1, 1, [5]⟩ : Matrix).cols ∧
    (⟨1, 1, [5]⟩ : Matrix).correct.entry 0 0 =
      correctSpecFn ((⟨1, 1, [5]⟩ : Matrix).entry 0 0) :=
  correct_spec ⟨1, 1, [5]⟩ (by decide) 0 0 (by decide) (by decide)

end Linalg

namespace Linalg

namespace Matrix

/-! ### Structure of the cofactor cut and minor -/

/-- The filtered row/column index list of `cut` decomposes into the indices
below `e` followed by those above `e`. -/
theorem filter_ne_range_eq {n e : Nat} (he : e < n) :
    (List.range n).filter (fun x => x ≠ e) =
      List.range e ++ (List.range (n - (e + 1))).map (fun x => (e + 1) + x) := by
  have hn : n = (e + 1) + (n - (e + 1)) := by omega
  rw [hn, List.range_add, List.filter_append, List.range_succ, List.filter_append]
  have h1 : (List.range e).filter (fun x => x ≠ e) = List.range e := by
    rw [List.filter_eq_self]
    intro a ha
    rw [List.mem_range] at ha
    simp
    omega
  have h2 : ([e] : List Nat).filter (fun x => x ≠ e) = [] := by simp
  have h3 : ((List.range (n - (e + 1))).map ((e + 1) + ·)).filter (fun x => x ≠ e) =
      (List.range (n - (e + 1))).map ((e + 1) + ·) := by
    rw [List.filter_eq_self]
    intro a ha
    rw [List.mem_map] at ha
    obtain ⟨x, _, rfl⟩ := ha
    simp
    omega
  rw [h1, h2, h3, List.append_nil]
  have harith : e + 1 + (n - (e + 1)) - (e + 1) = n - (e + 1) := by omega
  rw [harith]

theorem filter_ne_range_length {n e : Nat} (he : e < n) :
    ((List.range n).filter (fun x => x ≠ e)).length = n - 1 := by
  rw [filter_ne_range_eq he]
  simp
  omega

theorem filter_ne_range_getElem {n e i : Nat} (he : e < n) (hi : i < n - 1) :
    ((List.range n).filter (fun x => x ≠ e))[i]? =
      some (if i < e then i else i + 1) := by
  rw [filter_ne_range_eq he]
  by_cases h : i < e
  · rw [List.getElem?_append_left (by simpa using h), List.getElem?_range h, if_pos h]
  · rw [List.getElem?_append_right (by simpa using h)]
    push_neg at h
    rw [List.length_range, List.getElem?_map, List.getElem?_range (by omega)]
    rw [if_neg (by omega)]
    simp
    omega

theorem cut_length {m : Matrix} {er j : Nat} (her : er < m.rows) :
    (m.cut er j).length = m.rows - 1 := by
  rw [cut, List.length_map, filter_ne_range_length her]

/-- Every row of `cut` has the same length: the number of surviving column
indices. -/
theorem cut_mem_length {m : Matrix} {er j : Nat} :
    ∀ x ∈ m.cut er j, x.length = ((List.range m.cols).filter (fun c => c ≠ j)).length := by
  intro x hx
  rw [cut] at hx
  rw [List.mem_map] at hx
  obtain ⟨r, _, rfl⟩ := hx
  rw [List.length_map]

theorem minorOf_rows {m : Matrix} {er j : Nat} (her : er < m.rows) :
    (m.minorOf er j).rows = m.rows - 1 := by
  rw [minorOf]
  exact cut_length her

theorem minorOf_cols {m : Matrix} {er j : Nat} (hne : m.cut er j ≠ []) :
    (m.minorOf er j).cols = ((List.range m.cols).filter (fun c => c ≠ j)).length := by
  rw [minorOf]
  show ((m.cut er j).headD []).length = _
  cases hcut : m.cut er j with
  | nil => exact absurd hcut hne
  | cons g gs =>
    show g.length = _
    exact cut_mem_length g (hcut ▸ List.mem_cons_self g gs)

theorem minorOf_sizeInv {m : Matrix} {er j : Nat} (her : er < m.rows)
    (hne : m.cut er j ≠ []) : (m.minorOf er j).SizeInv := by
  rw [SizeInv, minorOf_rows her, minorOf_cols hne]
  show (m.cut er j).flatten.length = _
  rw [flatten_length_uniform (m.cut er j) cut_mem_length, cut_length her]

theorem minorOf_cols_lt {m : Matrix} {er j : Nat} (hne : m.cut er j ≠ []) (hj : j < m.cols) :
    (m.minorOf er j).cols = m.cols - 1 := by
  rw [minorOf_cols hne, filter_ne_range_length hj]

/-- Flattened access into a list of equal-width rows. -/
theorem flatten_getElem_uniform {w : Nat} :
    ∀ (L : List (List ℚ)) (r c : Nat), (∀ x ∈ L, x.length = w) → r < L.length → c < w →
      L.flatten[r * w + c]? = ((L[r]?).getD [])[c]? := by
  intro L
  induction L with
  | nil => intro r c _ hr _; simp at hr
  | cons x L ih =>
    intro r c hw hr hc
    cases r with
    | zero =>
      rw [List.flatten_cons, List.getElem?_append_left]
      · simp
      · rw [hw x (List.mem_cons_self x L)]
        simpa using hc
    | succ r =>
      rw [List.flatten_cons, List.getElem?_append_right]
      · rw [hw x (List.mem_cons_self x L)]
        have harith : (r + 1) * w + c - w = r * w + c := by ring_nf; omega
        rw [harith]
        rw [ih r c (fun y hy => hw y (List.mem_cons_of_mem x hy)) (by simpa using hr) hc]
        simp
      · rw [hw x (List.mem_cons_self x L)]
        calc w = 1 * w + 0 := by ring
        _ ≤ (r + 1) * w + c := by
            have : 1 * w ≤ (r + 1) * w := Nat.mul_le_mul_right w (by omega)
            omega

/-- Entries of the cofactor minor: position `(r', c')` of the minor is the
entry of the original matrix with the expanded row and the column `j`
skipped. -/
theorem minorOf_entry {m : Matrix} {er j r' c' : Nat}
    (her : er < m.rows) (hj : j < m.cols)
    (hr' : r' < m.rows - 1) (hc' : c' < m.cols - 1) :
    (m.minorOf er j).entry r' c' =
      m.entry (if r' < er then r' else r' + 1) (if c' < j then c' else c' + 1) := by
  have hne : m.cut er j ≠ [] := by
    intro h
    have := @cut_length m er j her
    rw [h] at this
    simp at this
    omega
  rw [entry, minorOf_cols_lt hne hj]
  show ((m.cut er j).flatten[r' * (m.cols - 1) + c']?).getD 0 = _
  have hw : ∀ x ∈ m.cut er j, x.length = m.cols - 1 := by
    intro x hx
    rw [cut_mem_length x hx, filter_ne_range_length hj]
  rw [flatten_getElem_uniform (m.cut er j) r' c' hw (by rw [cut_length her]; exact hr') hc']
  rw [cut]
  rw [List.getElem?_map, filter_ne_range_getElem her hr']
  simp only [Option.map_some', Option.getD_some]
  rw [List.getElem?_map, filter_ne_range_getElem hj hc']
  simp only [Option.map_some', Option.getD_some]

end Matrix

end Linalg

namespace Linalg

namespace Matrix

/-! ### Determinant: fuel stability and existence -/

/-- The determinant accumulation loop, when every cofactor succeeds, computes
the corresponding `Finset.range` sum. -/
theorem foldlM_map_sum (g : Nat → Option ℚ) (e : Nat → ℚ) (v : Nat → ℚ) :
    ∀ (n : Nat), (∀ j, j < n → g j = some (v j)) → ∀ init : ℚ,
      (List.range n).foldlM (fun acc j => (g j).map (fun cf => acc + cf * e j)) init =
        some (init + ∑ j ∈ Finset.range n, v j * e j) := by
  intro n
  induction n with
  | zero => intro _ init; simp
  | succ n ih =>
    intro h init
    rw [List.range_succ, List.foldlM_append, ih (fun j hj => h j (by omega)) init]
    simp only [Option.pure_def, Option.bind_eq_bind, Option.some_bind]
    rw [List.foldlM_cons, h n (by omega)]
    simp only [Option.map_some', Option.some_bind, List.foldlM_nil, Option.pure_def,
      Option.bind_eq_bind]
    rw [Finset.sum_range_succ, add_assoc]

/-- The fuel argument of `detF` is irrelevant once it exceeds the row count
(on size-invariant matrices): the recursion only ever descends to minors with
one row fewer. -/
theorem detF_stable :
    ∀ (fuel₁ fuel₂ : Nat) (m : Matrix), m.SizeInv → m.rows < fuel₁ → m.rows < fuel₂ →
      detF fuel₁ m = detF fuel₂ m := by
  intro fuel₁
  induction fuel₁ with
  | zero => intro fuel₂ m _ h1 _; omega
  | succ f ih =>
    intro fuel₂ m hm h1 h2
    cases fuel₂ with
    | zero => omega
    | succ l =>
      simp only [detF]
      by_cases hsq : m.rows ≠ m.cols
      · rw [if_pos hsq, if_pos hsq]
      · rw [if_neg hsq, if_neg hsq]
        push_neg at hsq
        by_cases h22 : m.rows = 2 ∧ m.cols = 2
        · rw [if_pos h22, if_pos h22]
        · rw [if_neg h22, if_neg h22]
          by_cases hbd : 2 * m.cols ≤ m.data.length
          · rw [if_pos hbd, if_pos hbd]
            rcases Nat.eq_zero_or_pos m.cols with hc0 | hcpos
            · rw [hc0]
              rfl
            · have hrne2 : m.rows ≠ 2 := fun hr => h22 ⟨hr, hsq ▸ hr⟩
              rw [hm] at hbd
              have h2le : 2 ≤ m.rows := Nat.le_of_mul_le_mul_right hbd hcpos
              have h3r : 3 ≤ m.rows := by omega
              have hstep : (fun (acc : ℚ) j => (cofWith (fun mm => detF f mm) m 1 j).map
                    (fun cf => acc + cf * m.entry 1 j)) =
                  (fun (acc : ℚ) j => (cofWith (fun mm => detF l mm) m 1 j).map
                    (fun cf => acc + cf * m.entry 1 j)) := by
                funext acc j
                congr 1
                unfold cofWith
                by_cases hcut : m.cut 1 j = []
                · rw [if_pos hcut, if_pos hcut]
                · rw [if_neg hcut, if_neg hcut]
                  congr 1
                  have hmrows : (m.minorOf 1 j).rows = m.rows - 1 :=
                    minorOf_rows (by omega)
                  apply ih
                  · exact minorOf_sizeInv (by omega) hcut
                  · omega
                  · omega
              rw [hstep]
          · rw [if_neg hbd, if_neg hbd]

/-- On a size-invariant square matrix with at least two rows, `detF` succeeds
whenever the fuel exceeds the row count. -/
theorem detF_isSome :
    ∀ (fuel : Nat) (m : Matrix), m.SizeInv → m.rows = m.cols → 2 ≤ m.rows → m.rows < fuel →
      ∃ d, detF fuel m = some d := by
  intro fuel
  induction fuel with
  | zero => intro m _ _ _ h; omega
  | succ f ih =>
    intro m hm hsq h2 hlt
    by_cases h22 : m.rows = 2
    · refine ⟨m.entry 0 0 * m.entry 1 1 - m.entry 0 1 * m.entry 1 0, ?_⟩
      simp only [detF]
      rw [if_neg (by simp [hsq]), if_pos ⟨h22, hsq ▸ h22⟩]
    · have h3 : 3 ≤ m.rows := by omega
      have hbd : 2 * m.cols ≤ m.data.length := by
        rw [hm]
        exact Nat.mul_le_mul_right m.cols (by omega)
      have hcof : ∀ j, j < m.cols →
          cofWith (fun mm => detF f mm) m 1 j =
            some ((cofWith (fun mm => detF f mm) m 1 j).getD 0) := by
        intro j hj
        have hcut : m.cut 1 j ≠ [] := by
          intro hnil
          have hl := @cut_length m 1 j (by omega)
          rw [hnil] at hl
          simp at hl
          omega
        have hmsz : (m.minorOf 1 j).SizeInv := minorOf_sizeInv (by omega) hcut
        have hmr : (m.minorOf 1 j).rows = m.rows - 1 := minorOf_rows (by omega)
        have hmc : (m.minorOf 1 j).cols = m.cols - 1 := minorOf_cols_lt hcut hj
        obtain ⟨dj, hdj⟩ := ih (m.minorOf 1 j) hmsz (by omega) (by omega) (by omega)
        rw [cofWith, if_neg hcut, hdj]
        rfl
      refine ⟨0 + ∑ j ∈ Finset.range m.cols,
        (cofWith (fun mm => detF f mm) m 1 j).getD 0 * m.entry 1 j, ?_⟩
      simp only [detF]
      rw [if_neg (by simp [hsq]), if_neg (fun hh => h22 hh.1), if_pos hbd]
      exact foldlM_map_sum _ _ _ m.cols hcof 0

end Matrix

end Linalg

namespace Linalg

/-- Claim C5: `det` of a `2×2` matrix `[[a,b],[c,d]]` is exactly
`a*d - b*c`; and for every size-invariant square matrix with at least 3 rows,
`det` succeeds and equals the Laplace expansion along row index 1 — the sum
over all columns `j` of `cofactor(1, j) * M[1][j]` — where `cofactor(e, j)`
is `(-1)^(e+j)` times the determinant of the minor obtained by deleting row
`e` and column `j` (a fresh `(rows-1) × (cols-1)` matrix whose entries skip
the deleted row and column). -/
theorem det_laplace_row_one (m : Matrix) (hm : m.SizeInv) (hsq : m.rows = m.cols)
    (h3 : 3 ≤ m.rows) (a b c d : ℚ) :
    Matrix.det ⟨2, 2, [a, b, c, d]⟩ = some (a * d - b * c) ∧
    m.det = some (∑ j ∈ Finset.range m.cols, (m.cofactor 1 j).getD 0 * m.entry 1 j) ∧
    ∀ j, j < m.cols →
      m.cofactor 1 j = some ((((m.minorOf 1 j).det).getD 0) * (-1 : ℚ) ^ (1 + j)) ∧
      (∃ dj, (m.minorOf 1 j).det = some dj) ∧
      (m.minorOf 1 j).rows = m.rows - 1 ∧ (m.minorOf 1 j).cols = m.cols - 1 ∧
      (∀ r' c', r' < m.rows - 1 → c' < m.cols - 1 →
        (m.minorOf 1 j).entry r' c' =
          m.entry (if r' < 1 then r' else r' + 1) (if c' < j then c' else c' + 1)) := by
  have h1r : 1 < m.rows := by omega
  have hbd : 2 * m.cols ≤ m.data.length := by
    rw [hm]
    exact Nat.mul_le_mul_right m.cols (by omega)
  have hcut : ∀ j, m.cut 1 j ≠ [] := by
    intro j hnil
    have hl := @Matrix.cut_length m 1 j h1r
    rw [hnil] at hl
    simp at hl
    omega
  have hminfacts : ∀ j, j < m.cols →
      (m.minorOf 1 j).SizeInv ∧ (m.minorOf 1 j).rows = m.rows - 1 ∧
        (m.minorOf 1 j).cols = m.cols - 1 := fun j hj =>
    ⟨Matrix.minorOf_sizeInv h1r (hcut j), Matrix.minorOf_rows h1r,
      Matrix.minorOf_cols_lt (hcut j) hj⟩
  have hdm : ∀ j, j < m.cols → ∃ dj, (m.minorOf 1 j).det = some dj := by
    intro j hj
    obtain ⟨hsz, hr, hc⟩ := hminfacts j hj
    exact Matrix.detF_isSome _ _ hsz (by omega) (by omega) (by omega)
  have hstab : ∀ j fuel, j < m.cols → (m.minorOf 1 j).rows < fuel →
      Matrix.detF fuel (m.minorOf 1 j) = (m.minorOf 1 j).det := by
    intro j fuel hj hlt
    obtain ⟨hsz, hr, hc⟩ := hminfacts j hj
    exact Matrix.detF_stable fuel ((m.minorOf 1 j).rows + 1) (m.minorOf 1 j) hsz hlt
      (Nat.lt_succ_self _)
  have hcofactor : ∀ j, j < m.cols →
      m.cofactor 1 j = some ((((m.minorOf 1 j).det).getD 0) * (-1 : ℚ) ^ (1 + j)) := by
    intro j hj
    obtain ⟨hsz, hr, hc⟩ := hminfacts j hj
    obtain ⟨dj, hdj⟩ := hdm j hj
    rw [Matrix.cofactor, Matrix.cofF, Matrix.cofWith, if_neg (hcut j)]
    rw [hstab j (m.rows + 1) hj (by omega), hdj]
    rfl
  refine ⟨rfl, ?_, ?_⟩
  · rw [Matrix.det]
    simp only [Matrix.detF]
    rw [if_neg (by simp [hsq]), if_neg (by rintro ⟨h2, _⟩; omega), if_pos hbd]
    have hg : ∀ j, j < m.cols →
        Matrix.cofWith (fun mm => Matrix.detF m.rows mm) m 1 j =
          some ((m.cofactor 1 j).getD 0) := by
      intro j hj
      obtain ⟨hsz, hr, hc⟩ := hminfacts j hj
      obtain ⟨dj, hdj⟩ := hdm j hj
      rw [Matrix.cofWith, if_neg (hcut j)]
      rw [hstab j m.rows hj (by omega), hdj, hcofactor j hj, hdj]
      rfl
    have := Matrix.foldlM_map_sum
      (fun j => Matrix.cofWith (fun mm => Matrix.detF m.rows mm) m 1 j)
      (fun j => m.entry 1 j) (fun j => (m.cofactor 1 j).getD 0) m.cols hg 0
    rw [this, zero_add]
  · intro j hj
    obtain ⟨hsz, hr, hc⟩ := hminfacts j hj
    exact ⟨hcofactor j hj, hdm j hj, hr, hc,
      fun r' c' hr' hc' => Matrix.minorOf_entry h1r hj hr' hc'⟩

/-- Witness for C5 at the concrete `3×3` matrix `[[1,2,3],[4,5,6],[7,8,10]]`
and the `2×2` instance `[[1,2],[3,4]]`. -/
theorem det_laplace_row_one_witness :
    Matrix.det ⟨2, 2, [1, 2, 3, 4]⟩ = some (1 * 4 - 2 * 3) ∧
    (⟨3, 3, [1, 2, 3, 4, 5, 6, 7, 8, 10]⟩ : Matrix).det =
      some (∑ j ∈ Finset.range (⟨3, 3, [1, 2, 3, 4, 5, 6, 7, 8, 10]⟩ : Matrix).cols,
        ((⟨3, 3, [1, 2, 3, 4, 5, 6, 7, 8, 10]⟩ : Matrix).cofactor 1 j).getD 0 *
          (⟨3, 3, [1, 2, 3, 4, 5, 6, 7, 8, 10]⟩ : Matrix).entry 1 j) ∧
    (∀ j, j < (⟨3, 3, [1, 2, 3, 4, 5, 6, 7, 8, 10]⟩ : Matrix).cols →
      (⟨3, 3, [1, 2, 3, 4, 5, 6, 7, 8, 10]⟩ : Matrix).cofactor 1 j =
        some (((((⟨3, 3, [1, 2, 3, 4, 5, 6, 7, 8, 10]⟩ : Matrix).minorOf 1 j).det).getD 0) *
          (-1 : ℚ) ^ (1 + j)) ∧
      (∃ dj, ((⟨3, 3, [1, 2, 3, 4, 5, 6, 7, 8, 10]⟩ : Matrix).minorOf 1 j).det = some dj) ∧
      ((⟨3, 3, [1, 2, 3, 4, 5, 6, 7, 8, 10]⟩ : Matrix).minorOf 1 j).rows =
        (⟨3, 3, [1, 2, 3, 4, 5, 6, 7, 8, 10]⟩ : Matrix).rows - 1 ∧
      ((⟨3, 3, [1, 2, 3, 4, 5, 6, 7, 8, 10]⟩ : Matrix).minorOf 1 j).cols =
        (⟨3, 3, [1, 2, 3, 4, 5, 6, 7, 8, 10]⟩ : Matrix).cols - 1 ∧
      (∀ r' c', r' < (⟨3, 3, [1, 2, 3, 4, 5, 6, 7, 8, 10]⟩ : Matrix).rows - 1 →
        c' < (⟨3, 3, [1, 2, 3, 4, 5, 6, 7, 8, 10]⟩ : Matrix).cols - 1 →
        ((⟨3, 3, [1, 2, 3, 4, 5, 6, 7, 8, 10]⟩ : Matrix).minorOf 1 j).entry r' c' =
          (⟨3, 3, [1, 2, 3, 4, 5, 6, 7, 8, 10]⟩ : Matrix).entry
            (if r' < 1 then r' else r' + 1) (if c' < j then c' else c' + 1))) :=
  det_laplace_row_one ⟨3, 3, [1, 2, 3, 4, 5, 6, 7, 8, 10]⟩ (by decide) rfl (by decide) 1 2 3 4

end Linalg

namespace Linalg

/-! ### Concrete evaluation helpers for the invariant witness -/

/-- Twice the `3×3` identity matrix, a convenient concrete input whose
inverse the source can actually compute. -/
def twoI : Matrix := ⟨3, 3, [2, 0, 0, 0, 2, 0, 0, 0, 2]⟩

theorem twoI_cof00 : twoI.cofactor 0 0 = some 4 := by
  simp only [Matrix.cofactor, Matrix.cofF, Matrix.cofWith]
  norm_num [Matrix.cut, Matrix.minorOf, Matrix.entry, Matrix.detF, twoI, List.range_succ]
  simp

theorem twoI_cof01 : twoI.cofactor 0 1 = some 0 := by
  simp only [Matrix.cofactor, Matrix.cofF, Matrix.cofWith]
  norm_num [Matrix.cut, Matrix.minorOf, Matrix.entry, Matrix.detF, twoI, List.range_succ]
  simp

theorem twoI_cof02 : twoI.cofactor 0 2 = some 0 := by
  simp only [Matrix.cofactor, Matrix.cofF, Matrix.cofWith]
  norm_num [Matrix.cut, Matrix.minorOf, Matrix.entry, Matrix.detF, twoI, List.range_succ]
  simp

theorem twoI_cof10 : twoI.cofactor 1 0 = some 0 := by
  simp only [Matrix.cofactor, Matrix.cofF, Matrix.cofWith]
  norm_num [Matrix.cut, Matrix.minorOf, Matrix.entry, Matrix.detF, twoI, List.range_succ]
  simp

theorem twoI_cof11 : twoI.cofactor 1 1 = some 4 := by
  simp only [Matrix.cofactor, Matrix.cofF, Matrix.cofWith]
  norm_num [Matrix.cut, Matrix.minorOf, Matrix.entry, Matrix.detF, twoI, List.range_succ]
  simp

theorem twoI_cof12 : twoI.cofactor 1 2 = some 0 := by
  simp only [Matrix.cofactor, Matrix.cofF, Matrix.cofWith]
  norm_num [Matrix.cut, Matrix.minorOf, Matrix.entry, Matrix.detF, twoI, List.range_succ]
  simp

theorem twoI_cof20 : twoI.cofactor 2 0 = some 0 := by
  simp only [Matrix.cofactor, Matrix.cofF, Matrix.cofWith]
  norm_num [Matrix.cut, Matrix.minorOf, Matrix.entry, Matrix.detF, twoI, List.range_succ]
  simp

theorem twoI_cof21 : twoI.cofactor 2 1 = some 0 := by
  simp only [Matrix.cofactor, Matrix.cofF, Matrix.cofWith]
  norm_num [Matrix.cut, Matrix.minorOf, Matrix.entry, Matrix.detF, twoI, List.range_succ]
  simp

theorem twoI_cof22 : twoI.cofactor 2 2 = some 4 := by
  simp only [Matrix.cofactor, Matrix.cofF, Matrix.cofWith]
  norm_num [Matrix.cut, Matrix.minorOf, Matrix.entry, Matrix.detF, twoI, List.range_succ]
  simp

theorem twoI_cofs : (List.range 3).mapM (fun r => (List.range 3).mapM (fun c =>
    twoI.cofactor r c)) = some [[4, 0, 0], [0, 4, 0], [0, 0, 4]] := by
  rw [show List.range 3 = [0, 1, 2] from rfl]
  simp [List.mapM, List.mapM.loop, twoI_cof00, twoI_cof01, twoI_cof02, twoI_cof10, twoI_cof11,
    twoI_cof12, twoI_cof20, twoI_cof21, twoI_cof22]

theorem twoI_det : twoI.det = some 8 := by
  show Matrix.detF 4 _ = _
  norm_num [Matrix.detF, Matrix.cofWith, Matrix.cut, Matrix.minorOf, Matrix.entry, twoI,
    List.range_succ]
  simp only [List.cons_ne_nil, if_false, ite_false]
  norm_num

/-- The source really can invert `2·I`: the result is `I/2` (after the
tolerance pass, transpose and the division by `det = 8`). -/
theorem twoI_inverse : twoI.inverse =
    some ⟨3, 3, [1/2, 0, 0, 0, 1/2, 0, 0, 0, 1/2]⟩ := by
  rw [Matrix.inverse, twoI_det, Option.some_bind, if_neg (by norm_num)]
  rw [show ((List.range twoI.rows).mapM (fun r => (List.range twoI.cols).mapM (fun c =>
    twoI.cofactor r c))) = some [[4, 0, 0], [0, 4, 0], [0, 0, 4]] from twoI_cofs]
  simp only [Option.map_some']
  norm_num [Matrix.correct, Matrix.correctEntry, Matrix.transpose, Matrix.ofFn, Matrix.apply,
    Matrix.entry, List.range_succ, twoI]

/-- A `1×1` matrix the elimination loop normalises to `[1]`. -/
theorem rref_one_eval : Matrix.rref ⟨1, 1, [2]⟩ = some ⟨1, 1, [1]⟩ := by
  norm_num [Matrix.rref, Matrix.rrefElim, Matrix.swap_rows, Matrix.correct, Matrix.correctEntry,
    Matrix.entry, Matrix.set, List.range_succ]

/-- Claim C7: every matrix produced (or left) by `new`, `from_string`,
`copy`, `identity`, `apply`, `combine`, `dot`, `rref`, `transpose` and
`inverse` satisfies the buffer invariant `data.len() == rows * cols`
(operations that read existing buffers preserve it; constructors establish
it). -/
theorem size_invariant_preserved :
    (∀ r c, (Matrix.new r c).SizeInv) ∧
    (∀ s m, Matrix.from_string s = some m → m.SizeInv) ∧
    (∀ m : Matrix, m.SizeInv → m.copy.SizeInv) ∧
    (∀ m m' : Matrix, m.SizeInv → m.identity = some m' → m'.SizeInv) ∧
    (∀ (m : Matrix) (f : ℚ → ℚ), m.SizeInv → (m.apply f).SizeInv) ∧
    (∀ (a b c : Matrix) (f : ℚ → ℚ → ℚ), a.SizeInv → b.SizeInv →
      Matrix.combine a b f = some c → c.SizeInv) ∧
    (∀ a b c : Matrix, Matrix.dot a b = some c → c.SizeInv) ∧
    (∀ m m' : Matrix, m.SizeInv → m.rref = some m' → m'.SizeInv) ∧
    (∀ m : Matrix, m.SizeInv → m.transpose.SizeInv) ∧
    (∀ m m' : Matrix, m.inverse = some m' → m'.SizeInv) :=
  ⟨Matrix.new_sizeInv,
   fun _ _ h => Matrix.from_string_sizeInv h,
   fun _ h => Matrix.copy_sizeInv h,
   fun _ _ hm h => Matrix.identity_sizeInv h hm,
   fun _ f hm => Matrix.apply_sizeInv f hm,
   fun _ _ _ f ha hb h => Matrix.combine_sizeInv f ha hb h,
   fun _ _ _ h => Matrix.dot_sizeInv h,
   fun _ _ hm h => Matrix.rref_sizeInv h hm,
   fun _ _ => Matrix.transpose_sizeInv _,
   fun _ _ h => Matrix.inverse_sizeInv h⟩

/-- Witness for C7: each conjunct applied at a concrete input on which the
operation actually succeeds (including a full `rref` run and a full `3×3`
inverse run). -/
theorem size_invariant_preserved_witness :
    (Matrix.new 2 3).SizeInv ∧
    Matrix.SizeInv ⟨2, 2, [4, 7, 2, 6]⟩ ∧
    (⟨1, 1, [1]⟩ : Matrix).copy.SizeInv ∧
    Matrix.SizeInv ⟨1, 1, [1]⟩ ∧
    ((⟨1, 1, [1]⟩ : Matrix).apply (fun x => x)).SizeInv ∧
    Matrix.SizeInv ⟨1, 1, [1]⟩ ∧
    Matrix.SizeInv ⟨0, 0, []⟩ ∧
    Matrix.SizeInv ⟨1, 1, [1]⟩ ∧
    (⟨1, 2, [1, 2]⟩ : Matrix).transpose.SizeInv ∧
    Matrix.SizeInv ⟨3, 3, [1/2, 0, 0, 0, 1/2, 0, 0, 0, 1/2]⟩ :=
  ⟨size_invariant_preserved.1 2 3,
   size_invariant_preserved.2.1 "4 7;2 6" ⟨2, 2, [4, 7, 2, 6]⟩ (by decide),
   size_invariant_preserved.2.2.1 ⟨1, 1, [1]⟩ (by decide),
   size_invariant_preserved.2.2.2.1 ⟨1, 1, [5]⟩ ⟨1, 1, [1]⟩ (by decide) (by decide),
   size_invariant_preserved.2.2.2.2.1 ⟨1, 1, [1]⟩ (fun x => x) (by decide),
   size_invariant_preserved.2.2.2.2.2.1 ⟨1, 1, [1]⟩ ⟨1, 1, [2]⟩ ⟨1, 1, [1]⟩
     (fun a _ => a) (by decide) (by decide) (by decide),
   size_invariant_preserved.2.2.2.2.2.2.1 ⟨0, 0, []⟩ ⟨0, 0, []⟩ ⟨0, 0, []⟩ (by decide),
   size_invariant_preserved.2.2.2.2.2.2.2.1 ⟨1, 1, [2]⟩ ⟨1, 1, [1]⟩ (by decide) rref_one_eval,
   size_invariant_preserved.2.2.2.2.2.2.2.2.1 ⟨1, 2, [1, 2]⟩ (by decide),
   size_invariant_preserved.2.2.2.2.2.2.2.2.2 twoI ⟨3, 3, [1/2, 0, 0, 0, 1/2, 0, 0, 0, 1/2]⟩
     twoI_inverse⟩

end Linalg
